import Mathlib

/-!
# Verification of the compiletest `//` → `//@` directive-migration tool

A shallow embedding, at the level of characters (`List Char`), of the Rust
program in `src/main.rs`.  Strings are modelled as lists of characters:
Rust's `&str` operations used by the program (`trim_start`, `trim`,
`starts_with`, `split_once`, `replace`, `lines`, `read_line`) all respect
character (code-point) boundaries for the patterns the program uses, so the
character-level model is faithful.  `BTreeSet<String>` is modelled as a
`List (List Char)`: the program only ever iterates a set comparing for
equality (`any`), extends it, and filters it, so only membership matters to
the statements proved here; deduplication and ordering of the set are
irrelevant to every theorem below.  Fallible operations (Rust `panic!`,
`assert!`, `bail!`, `.unwrap()`) are modelled by `Option`, `none` meaning
the program aborts.
-/

/-- Rust `char::is_whitespace`: the Unicode White_Space property (code
points U+0009–U+000D, U+0020, U+0085, U+00A0, U+1680, U+2000–U+200A,
U+2028, U+2029, U+202F, U+205F, U+3000). -/
def isRustWhitespace (c : Char) : Bool :=
  let n := c.toNat
  (9 ≤ n && n ≤ 13) || n == 32 || n == 0x85 || n == 0xA0 || n == 0x1680 ||
  (0x2000 ≤ n && n ≤ 0x200A) || n == 0x2028 || n == 0x2029 || n == 0x202F ||
  n == 0x205F || n == 0x3000

/-- Rust `str::trim_start`. -/
def trimStart (s : List Char) : List Char := s.dropWhile isRustWhitespace

/-- Rust `str::trim_end`. -/
def trimEnd (s : List Char) : List Char := (s.reverse.dropWhile isRustWhitespace).reverse

/-- Rust `str::trim`. -/
def trim (s : List Char) : List Char := trimEnd (trimStart s)

/-- The plain comment marker `//` (`main.rs` compares lines against it and
splits lines on it). -/
def marker : List Char := ['/', '/']

/-- The migrated directive marker `//@`. -/
def markerAt : List Char := ['/', '/', '@']

/-- Rust `str::split_once(pat)` for a literal pattern: split at the first
occurrence of `pat`, returning the parts before and after it, or `none`
when there is no occurrence. -/
def splitOnce (pat : List Char) : List Char → Option (List Char × List Char)
  | [] => if pat.isEmpty then some ([], []) else none
  | c :: cs =>
    if pat.isPrefixOf (c :: cs) then some ([], (c :: cs).drop pat.length)
    else (splitOnce pat cs).map (fun p => (c :: p.1, p.2))

/-- Rust `str::split_once` with a character-class pattern (such as
`[':', ' ']` in `extract_directive_names`, or `find(']')` which the code
only uses through the suffix after the found index): split at the first
character satisfying `p`, the matched character belonging to neither
part. -/
def splitOnceP (p : Char → Bool) : List Char → Option (List Char × List Char)
  | [] => none
  | c :: cs =>
    if p c then some ([], cs)
    else (splitOnceP p cs).map (fun q => (c :: q.1, q.2))

/-- `line_buf.replace("\r", "").replace("\n", "")` from
`migrate_compiletest_tests`: removing every occurrence of a single
character is the same as filtering it out. -/
def stripCrlf (s : List Char) : List Char :=
  s.filter (fun c => !(c == '\r') && !(c == '\n'))

/-! ## Directive-name extraction (`extract_directive_names`, main.rs 208–283)

The body of the `for raw_directive in collected_directives` loop, embedded
per raw directive.  `none` models `bail!` / `assert!` failure / `panic!`.
The code's bracket test `rest.find('[') is Some && rest.starts_with('[')`
is equivalent to `rest.starts_with('[')` (a leading `[` makes `find`
return `Some 0`), and then `lbracket_pos = 0 ≤ rbracket_pos` always holds,
so the inner `assert!(lbracket_pos <= rbracket_pos)` never fires;
`&rest[(rbracket_pos + 1)..]` is the suffix after the first `]`, which is
the second component of `splitOnceP (· == ']')`. -/

def extract_directive_name (raw : List Char) : Option (List Char) :=
  match splitOnce marker raw with
  | none => none
  | some (leading, rest0) =>
    if (trim leading).isEmpty then
      let rest1 := trimStart rest0
      let bracketStripped : Option (List Char) :=
        if rest1.head? = some '[' then
          match splitOnceP (fun c => c == ']') rest1 with
          | none => none
          | some q => some (trimStart q.2)
        else some (trimStart rest1)
      match bracketStripped with
      | none => none
      | some rest2 =>
        let rest3 := if rest2.head? = some ':' then trimStart (rest2.drop 1) else rest2
        match splitOnceP (fun c => c == ':' || c == ' ') rest3 with
        | some q => some (trim q.1)
        | none =>
          if (trim rest3).any (fun c => c == ' ') then none else some (trim rest3)
    else none

/-- `extract_directive_names` over the whole collected set; the result set
is modelled as the list of extracted names (`BTreeSet::insert` dedup is
irrelevant to the claims). -/
def extract_directive_names (collected : List (List Char)) : Option (List (List Char)) :=
  match collected with
  | [] => some []
  | d :: ds =>
    match extract_directive_name d, extract_directive_names ds with
    | some n, some ns => some (n :: ns)
    | _, _ => none

/-- C7: Directive-name extraction maps `// run-pass` to `run-pass`,
`// edition: 2021` to `edition`, `//[foo] ignore-windows` to
`ignore-windows`, and `//[foo]: ignore-windows` (stray leading colon after
the revision bracket) also to `ignore-windows`: the name is the text after
the marker, any balanced revision bracket and any stray leading colon, up
to the first colon or space. -/
theorem extract_name_concrete_cases :
    extract_directive_name "// run-pass".toList = some "run-pass".toList ∧
    extract_directive_name "// edition: 2021".toList = some "edition".toList ∧
    extract_directive_name "//[foo] ignore-windows".toList = some "ignore-windows".toList ∧
    extract_directive_name "//[foo]: ignore-windows".toList = some "ignore-windows".toList := by
  refine ⟨by decide, by decide, by decide, by decide⟩

/-- `splitOnceP` finds nothing exactly when no character satisfies the
class. -/
theorem splitOnceP_eq_none_iff (p : Char → Bool) :
    ∀ s : List Char, splitOnceP p s = none ↔ ∀ c ∈ s, p c = false := by
  intro s
  induction s with
  | nil => simp [splitOnceP]
  | cons c cs ih =>
    by_cases hc : p c = true
    · simp [splitOnceP, hc]
    · have hc2 : p c = false := by
        cases h : p c
        · rfl
        · exact absurd h hc
      simp [splitOnceP, hc2, Option.map_eq_none', ih]

/-- Characters of `trim s` are characters of `s`. -/
theorem mem_of_mem_trim {c : Char} {s : List Char} (h : c ∈ trim s) : c ∈ s := by
  unfold trim trimEnd trimStart at h
  have h1 : c ∈ (trimStart s).reverse.dropWhile isRustWhitespace := by
    simpa using h
  have h2 : c ∈ (trimStart s).reverse := (List.dropWhile_sublist _).mem h1
  have h3 : c ∈ trimStart s := by simpa using h2
  exact (List.dropWhile_sublist _).mem h3

/-- C8: name extraction fails (`none`, modelling `bail!`/`panic!`) on a
raw directive with no `//` marker and on one whose post-marker text starts
with a revision bracket `[` that is never closed; and the "internal space
with no colon-or-space separator" condition of the final `assert!` is
unsatisfiable (when no separator is found the remaining text contains no
space at all), so that assertion can never fire. -/
theorem extract_name_failure_modes :
    (∀ raw : List Char, splitOnce marker raw = none →
      extract_directive_name raw = none) ∧
    (∀ raw leading rest0 : List Char,
      splitOnce marker raw = some (leading, rest0) →
      (trim leading).isEmpty = true →
      (trimStart rest0).head? = some '[' →
      splitOnceP (fun c => c == ']') (trimStart rest0) = none →
      extract_directive_name raw = none) ∧
    (∀ s : List Char, splitOnceP (fun c => c == ':' || c == ' ') s = none →
      (trim s).any (fun c => c == ' ') = false) := by
  refine ⟨?_, ?_, ?_⟩
  · intro raw h
    unfold extract_directive_name
    rw [h]
  · intro raw leading rest0 hsplit htrim hbra hnone
    unfold extract_directive_name
    rw [hsplit]
    simp only [htrim, if_true, hbra, if_pos, hnone]
  · intro s hnone
    have hall := (splitOnceP_eq_none_iff _ s).mp hnone
    by_contra hany
    have hany2 : (trim s).any (fun c => c == ' ') = true := by
      cases h : (trim s).any (fun c => c == ' ')
      · exact absurd h hany
      · rfl
    obtain ⟨c, hc, hcsp⟩ := List.any_eq_true.mp hany2
    have := hall c (mem_of_mem_trim hc)
    rw [Bool.or_eq_false_iff] at this
    rw [this.2] at hcsp
    exact Bool.false_ne_true hcsp

/-- Concrete instances of the three failure modes of
`extract_name_failure_modes`: a marker-less directive, the unbalanced
bracket `//[foo ignore-windows`, and the vacuity of the ambiguous-name
assertion on `run-pass`. -/
theorem extract_name_failure_modes_witness :
    extract_directive_name "run-pass".toList = none ∧
    extract_directive_name "//[foo ignore-windows".toList = none ∧
    (trim "run-pass".toList).any (fun c => c == ' ') = false := by
  refine ⟨extract_name_failure_modes.1 _ (by decide),
    extract_name_failure_modes.2.1 _ [] " [foo ignore-windows".toList.tail
      (by decide) (by decide) (by decide) (by decide),
    extract_name_failure_modes.2.2 _ (by decide)⟩

/-! ## Header collection (`collect_headers`, main.rs 95–127, and the
manual-directive merge in `main`, main.rs 79–88) -/

/-- One line as produced by Rust `str::lines()`: a segment terminated by
`\n` has that `\n` removed and, when the segment ends with `\r\n`, the
`\r` as well; a final unterminated segment is yielded as-is. -/
def stripTrailingCr (l : List Char) : List Char :=
  if l.getLast? = some '\r' then l.dropLast else l

/-- Rust `str::lines()` over the collected-headers file content: split on
`\n` (dropping the terminator and a preceding `\r`), the final segment
yielded without termination, an empty final segment not yielded. -/
def rustLinesAux : List Char → List Char → List (List Char)
  | [], acc => if acc.isEmpty then [] else [acc.reverse]
  | c :: cs, acc =>
    if c = '\n' then stripTrailingCr acc.reverse :: rustLinesAux cs []
    else rustLinesAux cs (c :: acc)

def rustLines (s : List Char) : List (List Char) := rustLinesAux s []

/-- The `retain` predicate of `collect_headers` (main.rs 115–122): keep a
header iff it is not whitespace-only, does not trim to the bare marker
`//`, does not start (after trimming) with `#`, and — when it contains
`//` at all — the text after the first `//` does not begin, after
trimming, with `ignore-tidy`. -/
def headerKeep (header : List Char) : Bool :=
  !(trim header).isEmpty &&
  !(trim header == marker) &&
  !((trim header).head? == some '#') &&
  (match splitOnce marker header with
   | some q => !("ignore-tidy".toList.isPrefixOf (trim q.2))
   | none => true)

/-- `collect_headers` applied to the content of the collected-headers file
`$PATH_TO_RUSTC/build/$TARGET/test/__directive_lines.txt`: the file's
lines, filtered by the `retain` predicate (the `BTreeSet` dedup/order is
immaterial to membership). -/
def collect_headers (content : List Char) : List (List Char) :=
  (rustLines content).filter headerKeep

/-- The directive set actually used by the `Migrate` /
`CollectDirectiveNames` commands: the filtered collected headers
*extended with* the caller-supplied `manual_directives`, which `main`
merges **after** `collect_headers` returns (main.rs 81/86) and which are
therefore not subject to the `retain` filter. -/
def finalDirectiveSet (content : List Char) (manual : List (List Char)) : List (List Char) :=
  collect_headers content ++ manual

/-- The relative path `build/<target>/test/__directive_lines.txt` of the
primary collected-headers file (paths modelled as component lists). -/
def directive_lines_path (target : List Char) : List (List Char) :=
  ["build".toList, target, "test".toList, "__directive_lines.txt".toList]

/-- A filesystem modelled as an association list from paths to file
contents; `readFile` models `std::fs::read_to_string` (`none` = the
`context`-wrapped read failure). -/
def readFile (fs : List (List (List Char) × List Char)) (p : List (List Char)) :
    Option (List Char) :=
  (fs.find? (fun e => e.1 == p)).map (fun e => e.2)

/-- `collect_headers` at the filesystem level: it reads exactly one file,
`<path_to_rustc>/build/<target>/test/__directive_lines.txt`, and filters
its lines. -/
def collect_headersFS (fs : List (List (List Char) × List Char))
    (pathToRustc : List (List Char)) (target : List Char) : Option (List (List Char)) :=
  (readFile fs (pathToRustc ++ directive_lines_path target)).map collect_headers


/-- C5 fails as stated: manual override strings are merged into the final
set *after* the `retain` filter ran, so the final DirectiveSet can contain
the very entry `// ignore-tidy-foo` the claim says never appears. -/
theorem final_set_filter_counterexample :
    "// ignore-tidy-foo".toList ∈
      finalDirectiveSet [] ["// ignore-tidy-foo".toList] ∧
    splitOnce marker "// ignore-tidy-foo".toList =
      some ([], " ignore-tidy-foo".toList) ∧
    "ignore-tidy".toList.isPrefixOf (trim " ignore-tidy-foo".toList) = true := by
  refine ⟨by decide, by decide, by decide⟩

/-- C5 amended: every entry of the *collected* part of the DirectiveSet
(the output of `collect_headers`, before the unfiltered manual-override
merge) is non-empty and non-whitespace, does not trim to the bare marker
`//`, does not start with `#` after trimming, and its body after the first
`//` does not begin (after trimming) with `ignore-tidy`. -/
theorem collected_headers_filtered (content : List Char) (h : List Char)
    (hmem : h ∈ collect_headers content) :
    trim h ≠ [] ∧ trim h ≠ marker ∧ (trim h).head? ≠ some '#' ∧
    ∀ pre post, splitOnce marker h = some (pre, post) →
      "ignore-tidy".toList.isPrefixOf (trim post) = false := by
  have hkeep : headerKeep h = true := (List.mem_filter.mp hmem).2
  unfold headerKeep at hkeep
  simp only [Bool.and_eq_true, Bool.not_eq_true'] at hkeep
  obtain ⟨⟨⟨h1, h2⟩, h3⟩, h4⟩ := hkeep
  refine ⟨?_, ?_, ?_, ?_⟩
  · intro he
    rw [he] at h1
    simp at h1
  · intro he
    rw [he] at h2
    simp at h2
  · intro he
    rw [he] at h3
    simp at h3
  · intro pre post hsplit
    rw [hsplit] at h4
    simpa using h4

/-- `collected_headers_filtered` at the concrete collected-headers file
content `"// run-pass\n"` and its surviving entry `// run-pass`. -/
theorem collected_headers_filtered_witness :
    trim "// run-pass".toList ≠ [] ∧
    trim "// run-pass".toList ≠ marker ∧
    (trim "// run-pass".toList).head? ≠ some '#' ∧
    ∀ pre post, splitOnce marker "// run-pass".toList = some (pre, post) →
      "ignore-tidy".toList.isPrefixOf (trim post) = false :=
  collected_headers_filtered "// run-pass\n".toList "// run-pass".toList (by decide)

/-- C6 fails as stated: `collect_headers` reads only the single primary
file; a directive sitting in another file under the repository (here
`rustc/collected/extra.txt`, containing `// run-pass`, which the filter
would keep) is not unioned into the resulting set, which stays empty. -/
theorem no_secondary_tree_counterexample :
    collect_headersFS
      [ (["rustc".toList] ++ directive_lines_path "x".toList, []),
        (["rustc".toList, "collected".toList, "extra.txt".toList],
          "// run-pass".toList) ]
      ["rustc".toList] "x".toList = some [] ∧
    headerKeep "// run-pass".toList = true := by
  refine ⟨by decide, by decide⟩

/-- C6 amended: DirectiveSet construction reads only the primary flat
collected-headers file: its result is a function of that one file's
content, unchanged under any modification of every other file in the
filesystem. -/
theorem collect_headers_reads_only_primary
    (fs1 fs2 : List (List (List Char) × List Char))
    (root : List (List Char)) (target : List Char)
    (hsame : readFile fs1 (root ++ directive_lines_path target) =
      readFile fs2 (root ++ directive_lines_path target)) :
    collect_headersFS fs1 root target = collect_headersFS fs2 root target := by
  unfold collect_headersFS
  rw [hsame]

/-- `collect_headers_reads_only_primary` on two concrete filesystems that
agree on the primary file but differ elsewhere. -/
theorem collect_headers_reads_only_primary_witness :
    collect_headersFS
      [ (["rustc".toList] ++ directive_lines_path "x".toList, "// run-pass\n".toList) ]
      ["rustc".toList] "x".toList =
    collect_headersFS
      [ (["rustc".toList] ++ directive_lines_path "x".toList, "// run-pass\n".toList),
        (["rustc".toList, "extra.txt".toList], "// only-x86_64\n".toList) ]
      ["rustc".toList] "x".toList :=
  collect_headers_reads_only_primary _ _ _ _ (by decide)

/-! ## Per-line classification and file migration
(`migrate_compiletest_tests`, main.rs 162–203) -/

/-- The body of the `'line: loop` (main.rs 184–198) for one line: if the
line, after trimming leading whitespace, starts with `//`, split it at the
first `//` (the `.unwrap()` modelled by `Option`) and, if the line with
every `\r` and `\n` removed equals one of the collected headers, write
`before ++ "//@" ++ after`; otherwise write the line unchanged.  The
`for header in collected_headers.iter()` loop is an existence test
(`any`): every matching header produces the same output line. -/
def classifyLine (headers : List (List Char)) (line : List Char) : Option (List Char) :=
  if marker.isPrefixOf (trimStart line) then
    (splitOnce marker line).map (fun p =>
      if headers.any (fun h => stripCrlf line == h) then p.1 ++ markerAt ++ p.2
      else line)
  else some line

/-- `BufRead::read_line` splits a file's content into lines: each line
keeps its terminating `\n`; a final unterminated segment is still one
line; an empty file yields no lines (`acc` holds the reversed text of the
line being accumulated). -/
def splitLinesAux : List Char → List Char → List (List Char)
  | [], acc => if acc.isEmpty then [] else [acc.reverse]
  | c :: cs, acc =>
    if c = '\n' then (acc.reverse ++ ['\n']) :: splitLinesAux cs []
    else splitLinesAux cs (c :: acc)

def splitLines (s : List Char) : List (List Char) := splitLinesAux s []

/-- The whole `'line: loop`: process the lines in source order; `none`
when the `.unwrap()` would panic. -/
def processLines (headers : List (List Char)) : List (List Char) → Option (List (List Char))
  | [] => some []
  | l :: ls =>
    match classifyLine headers l, processLines headers ls with
    | some r, some rs => some (r :: rs)
    | _, _ => none

/-- `migrate_compiletest_tests` on one file's content: the bytes written
to the temporary file that atomically replaces the original. -/
def migrateFile (headers : List (List Char)) (content : List Char) : Option (List Char) :=
  (processLines headers (splitLines content)).map List.flatten

theorem marker_isPrefixOf_iff (l : List Char) :
    marker.isPrefixOf l = true ↔ ∃ t, l = '/' :: '/' :: t := by
  rw [List.isPrefixOf_iff_prefix]
  constructor
  · rintro ⟨t, ht⟩
    exact ⟨t, ht.symm⟩
  · rintro ⟨t, rfl⟩
    exact ⟨t, rfl⟩

theorem splitOnce_cons_pos {pat : List Char} {c : Char} {cs : List Char}
    (h : pat.isPrefixOf (c :: cs) = true) :
    splitOnce pat (c :: cs) = some ([], (c :: cs).drop pat.length) := by
  simp [splitOnce, h]

theorem splitOnce_cons_neg {pat : List Char} {c : Char} {cs : List Char}
    (h : pat.isPrefixOf (c :: cs) = false) :
    splitOnce pat (c :: cs) = (splitOnce pat cs).map (fun p => (c :: p.1, p.2)) := by
  simp [splitOnce, h]

/-- `split_once` soundness: the two parts flank the pattern. -/
theorem splitOnce_sound (pat : List Char) :
    ∀ s b a, splitOnce pat s = some (b, a) → s = b ++ pat ++ a := by
  intro s
  induction s with
  | nil =>
    intro b a h
    simp only [splitOnce] at h
    split at h
    case isTrue hp =>
      rw [List.isEmpty_iff] at hp
      injection h with h2
      injection h2 with hb ha
      subst hb
      subst ha
      simp [hp]
    case isFalse => exact Option.noConfusion h
  | cons c cs ih =>
    intro b a h
    simp only [splitOnce] at h
    split at h
    case isTrue hp =>
      injection h with h2
      injection h2 with hb ha
      subst hb
      subst ha
      rw [List.isPrefixOf_iff_prefix] at hp
      obtain ⟨t, ht⟩ := hp
      rw [← ht, List.drop_left]
      simp
    case isFalse hp =>
      obtain ⟨⟨b0, a0⟩, hsp, hmk⟩ := Option.map_eq_some'.mp h
      injection hmk with hb ha
      subst hb
      subst ha
      rw [ih b0 a0 hsp]
      simp

/-- `split_once` splits at the *first* occurrence: the prefix part is
shortest among all decompositions around the pattern. -/
theorem splitOnce_minimal (pat : List Char) :
    ∀ s b a, splitOnce pat s = some (b, a) →
      ∀ b2 a2, s = b2 ++ pat ++ a2 → b.length ≤ b2.length := by
  intro s
  induction s with
  | nil =>
    intro b a h b2 a2 heq
    simp only [splitOnce] at h
    split at h
    case isTrue hp =>
      injection h with h2
      injection h2 with hb ha
      subst hb
      simp
    case isFalse => exact Option.noConfusion h
  | cons c cs ih =>
    intro b a h b2 a2 heq
    simp only [splitOnce] at h
    split at h
    case isTrue hp =>
      injection h with h2
      injection h2 with hb ha
      subst hb
      simp
    case isFalse hp =>
      obtain ⟨⟨b0, a0⟩, hsp, hmk⟩ := Option.map_eq_some'.mp h
      injection hmk with hb ha
      subst hb
      subst ha
      cases b2 with
      | nil =>
        exfalso
        apply hp
        rw [List.isPrefixOf_iff_prefix]
        exact ⟨a2, by simpa using heq.symm⟩
      | cons c2 b2t =>
        injection heq with hc hcs
        simp only [List.length_cons, Nat.succ_le_succ_iff]
        exact ih b0 a0 hsp b2t a2 hcs

/-- When the marker leads the line after whitespace, splitting at the
marker succeeds and the text before the marker is all whitespace. -/
theorem splitOnce_marker_ws :
    ∀ s : List Char, marker.isPrefixOf (trimStart s) = true →
      ∃ b a, splitOnce marker s = some (b, a) ∧ ∀ c ∈ b, isRustWhitespace c = true := by
  intro s
  induction s with
  | nil =>
    intro h
    exact absurd h (by decide)
  | cons c cs ih =>
    intro h
    unfold trimStart at h
    rw [List.dropWhile_cons] at h
    by_cases hw : isRustWhitespace c = true
    · rw [if_pos hw] at h
      obtain ⟨b, a, hsp, hws⟩ := ih h
      have hnp : marker.isPrefixOf (c :: cs) = false := by
        cases hq : marker.isPrefixOf (c :: cs)
        · rfl
        · exfalso
          obtain ⟨t, ht⟩ := (marker_isPrefixOf_iff _).mp hq
          injection ht with hc _
          rw [hc] at hw
          exact absurd hw (by decide)
      refine ⟨c :: b, a, ?_, ?_⟩
      · rw [splitOnce_cons_neg hnp, hsp]
        rfl
      · intro x hx
        rcases List.mem_cons.mp hx with rfl | hx2
        · exact hw
        · exact hws x hx2
    · rw [if_neg hw] at h
      exact ⟨[], (c :: cs).drop marker.length, splitOnce_cons_pos h,
        fun x hx => absurd hx (List.not_mem_nil x)⟩

/-- A list of whitespace characters trims to nothing. -/
theorem trim_eq_nil_of_ws {b : List Char} (h : ∀ c ∈ b, isRustWhitespace c = true) :
    trim b = [] := by
  have h1 : trimStart b = [] := by
    unfold trimStart
    rw [List.dropWhile_eq_nil_iff]
    exact h
  unfold trim
  rw [h1]
  rfl

/-- Per-line processing always yields an output line (no panic). -/
theorem classifyLine_isSome (headers : List (List Char)) (line : List Char) :
    ∃ out, classifyLine headers line = some out := by
  unfold classifyLine
  split
  case isTrue hp =>
    obtain ⟨b, a, hsp, -⟩ := splitOnce_marker_ws line hp
    rw [hsp]
    exact ⟨_, rfl⟩
  case isFalse => exact ⟨line, rfl⟩

/-- A line whose `\r`/`\n`-normalised form is in no header is written
back unchanged. -/
theorem classifyLine_eq_some_self (headers : List (List Char)) (line : List Char)
    (h : stripCrlf line ∉ headers) :
    classifyLine headers line = some line := by
  unfold classifyLine
  split
  case isTrue hp =>
    obtain ⟨b, a, hsp, -⟩ := splitOnce_marker_ws line hp
    rw [hsp]
    have hany : headers.any (fun h2 => stripCrlf line == h2) = false := by
      cases hq : headers.any (fun h2 => stripCrlf line == h2)
      · rfl
      · exfalso
        obtain ⟨x, hx, he⟩ := List.any_eq_true.mp hq
        have hx2 : stripCrlf line ∈ headers := by
          rw [beq_iff_eq.mp he]
          exact hx
        exact h hx2
    simp [hany]
  case isFalse => rfl

/-- A matching line is rewritten to `before ++ "//@" ++ after`. -/
theorem classifyLine_eq_rewrite (headers : List (List Char)) (line b a : List Char)
    (hp : marker.isPrefixOf (trimStart line) = true)
    (hm : stripCrlf line ∈ headers)
    (hsp : splitOnce marker line = some (b, a)) :
    classifyLine headers line = some (b ++ markerAt ++ a) := by
  unfold classifyLine
  rw [if_pos hp, hsp]
  have hany : headers.any (fun h2 => stripCrlf line == h2) = true :=
    List.any_eq_true.mpr ⟨stripCrlf line, hm, beq_iff_eq.mpr rfl⟩
  simp [hany]

/-- C10: for every line whose whitespace-trimmed form begins with `//`,
splitting the line once at the first `//` succeeds with whitespace-only
text before the marker, so the `.unwrap()` after `split_once` — the
fail-loudly path for a marker in non-leading position — is unreachable and
per-line processing always produces an output line. -/
theorem marker_split_always_succeeds (headers : List (List Char)) (line : List Char)
    (h : marker.isPrefixOf (trimStart line) = true) :
    (∃ b a, splitOnce marker line = some (b, a) ∧
      (∀ c ∈ b, isRustWhitespace c = true) ∧ trim b = []) ∧
    ∃ out, classifyLine headers line = some out := by
  obtain ⟨b, a, hsp, hws⟩ := splitOnce_marker_ws line h
  exact ⟨⟨b, a, hsp, hws, trim_eq_nil_of_ws hws⟩, classifyLine_isSome headers line⟩

/-- `marker_split_always_succeeds` at the concrete line
`"  // run-pass\n"`. -/
theorem marker_split_always_succeeds_witness :
    (∃ b a, splitOnce marker "  // run-pass\n".toList = some (b, a) ∧
      (∀ c ∈ b, isRustWhitespace c = true) ∧ trim b = []) ∧
    ∃ out, classifyLine [] "  // run-pass\n".toList = some out :=
  marker_split_always_succeeds [] "  // run-pass\n".toList (by decide)

/-- C1: an input line whose whitespace-trimmed form begins with `//` and
which matches a DirectiveSet member (equality after removing every `\r`
and `\n`) is written out as the input line with its *first* occurrence of
`//` (the decomposition with the shortest before-part) replaced by `//@`;
both surrounding parts — including the line-terminator characters, which
sit inside the after-part — are carried over unchanged. -/
theorem migration_marker_substitution (headers : List (List Char)) (line : List Char)
    (hp : marker.isPrefixOf (trimStart line) = true)
    (hm : stripCrlf line ∈ headers) :
    ∃ b a, line = b ++ marker ++ a ∧
      (∀ b2 a2, line = b2 ++ marker ++ a2 → b.length ≤ b2.length) ∧
      classifyLine headers line = some (b ++ markerAt ++ a) := by
  obtain ⟨b, a, hsp, -⟩ := splitOnce_marker_ws line hp
  exact ⟨b, a, splitOnce_sound marker line b a hsp,
    splitOnce_minimal marker line b a hsp,
    classifyLine_eq_rewrite headers line b a hp hm hsp⟩

/-- `migration_marker_substitution` at the line `"// run-pass\n"` and the
singleton DirectiveSet containing `// run-pass`. -/
theorem migration_marker_substitution_witness :
    ∃ b a, "// run-pass\n".toList = b ++ marker ++ a ∧
      (∀ b2 a2, "// run-pass\n".toList = b2 ++ marker ++ a2 → b.length ≤ b2.length) ∧
      classifyLine ["// run-pass".toList] "// run-pass\n".toList =
        some (b ++ markerAt ++ a) :=
  migration_marker_substitution ["// run-pass".toList] "// run-pass\n".toList
    (by decide) (by decide)

/-- C2: a line whose whitespace-trimmed form begins with `//` is rewritten
(classified a directive) iff the line with every `\r` and `\n` character
removed is exactly equal to some DirectiveSet member — whole-sequence,
case-sensitive equality (revision brackets compared as literal text), not
containment. -/
theorem migration_match_is_exact_equality (headers : List (List Char)) (line : List Char)
    (hp : marker.isPrefixOf (trimStart line) = true) :
    (∃ out, classifyLine headers line = some out ∧ out ≠ line) ↔
      stripCrlf line ∈ headers := by
  constructor
  · rintro ⟨out, hout, hne⟩
    by_contra hm
    rw [classifyLine_eq_some_self headers line hm] at hout
    injection hout with h2
    exact hne h2.symm
  · intro hm
    obtain ⟨b, a, hsp, -⟩ := splitOnce_marker_ws line hp
    refine ⟨b ++ markerAt ++ a, classifyLine_eq_rewrite headers line b a hp hm hsp, ?_⟩
    intro he
    have hlen := congrArg List.length he
    have hline := splitOnce_sound marker line b a hsp
    rw [hline] at hlen
    simp [marker, markerAt] at hlen

/-- `migration_match_is_exact_equality` instantiated both ways: the line
`"// run-pass\n"` is rewritten against the set containing `// run-pass`,
and `"// just a comment\n"` against the same set is not. -/
theorem migration_match_is_exact_equality_witness :
    (∃ out, classifyLine ["// run-pass".toList] "// run-pass\n".toList = some out ∧
      out ≠ "// run-pass\n".toList) ∧
    ¬ ∃ out, classifyLine ["// run-pass".toList] "// just a comment\n".toList = some out ∧
      out ≠ "// just a comment\n".toList := by
  constructor
  · exact (migration_match_is_exact_equality ["// run-pass".toList]
      "// run-pass\n".toList (by decide)).mpr (by decide)
  · intro hcontra
    have := (migration_match_is_exact_equality ["// run-pass".toList]
      "// just a comment\n".toList (by decide)).mp hcontra
    exact absurd this (by decide)

/-- Concatenating the accumulated lines reconstructs the input. -/
theorem splitLinesAux_flatten :
    ∀ s acc : List Char, (splitLinesAux s acc).flatten = acc.reverse ++ s := by
  intro s
  induction s with
  | nil =>
    intro acc
    simp only [splitLinesAux]
    by_cases ha : acc.isEmpty
    · rw [if_pos ha]
      rw [List.isEmpty_iff] at ha
      simp [ha]
    · rw [if_neg ha]
      simp
  | cons c cs ih =>
    intro acc
    simp only [splitLinesAux]
    by_cases hc : c = '\n'
    · rw [if_pos hc, hc]
      simp [ih]
    · rw [if_neg hc]
      rw [ih (c :: acc)]
      simp

theorem splitLines_flatten (content : List Char) :
    (splitLines content).flatten = content := by
  unfold splitLines
  rw [splitLinesAux_flatten]
  rfl

/-- Lines none of which match are all written back unchanged. -/
theorem processLines_eq_self (headers : List (List Char)) :
    ∀ ls : List (List Char), (∀ l ∈ ls, stripCrlf l ∉ headers) →
      processLines headers ls = some ls := by
  intro ls
  induction ls with
  | nil => intro _; rfl
  | cons l ls ih =>
    intro hall
    have h1 : classifyLine headers l = some l :=
      classifyLine_eq_some_self headers l (hall l (List.mem_cons_self l ls))
    have h2 := ih (fun x hx => hall x (List.mem_cons_of_mem l hx))
    simp only [processLines, h1, h2]

/-- C3: migration processes every line — a final unterminated line
included: flattening the split lines reconstructs the content exactly —
each line not matching any DirectiveSet member (after `\r`/`\n`
normalisation) is written back byte-identically, and a file with no
matching line is rewritten byte-identical to the original. -/
theorem migration_round_trip_non_directives (headers : List (List Char)) (content : List Char) :
    (splitLines content).flatten = content ∧
    (∀ l, stripCrlf l ∉ headers → classifyLine headers l = some l) ∧
    ((∀ l ∈ splitLines content, stripCrlf l ∉ headers) →
      migrateFile headers content = some content) := by
  refine ⟨splitLines_flatten content, fun l => classifyLine_eq_some_self headers l, ?_⟩
  intro hall
  unfold migrateFile
  rw [processLines_eq_self headers (splitLines content) hall]
  simp [splitLines_flatten content]

/-- `migration_round_trip_non_directives` on a concrete file whose
comment line matches nothing: output equals input byte for byte. -/
theorem migration_round_trip_non_directives_witness :
    migrateFile ["// run-pass".toList] "// just a comment\r\nfn main() {}\n".toList =
      some "// just a comment\r\nfn main() {}\n".toList :=
  (migration_round_trip_non_directives ["// run-pass".toList]
    "// just a comment\r\nfn main() {}\n".toList).2.2 (by decide)

/-! ## Idempotence (C4) -/

/-- C4 fails as stated: with a DirectiveSet that contains an
already-migrated form (here `//@ x` — nothing stops a collected or manual
entry from looking like that), the first run turns `// x` into `//@ x`,
and the second run matches that output again and produces `//@@ x`. -/
theorem migration_idempotence_counterexample :
    migrateFile ["// x".toList, "//@ x".toList] "// x\n".toList =
      some "//@ x\n".toList ∧
    migrateFile ["// x".toList, "//@ x".toList] "//@ x\n".toList =
      some "//@@ x\n".toList ∧
    "//@@ x\n".toList ≠ "//@ x\n".toList := by
  refine ⟨by decide, by decide, by decide⟩

/-- Shape invariant of the lines produced by `read_line`: every line is
`w ++ ['\n']` with no `'\n'` inside `w`, except that the final line may
instead be a nonempty `w` containing no `'\n'` at all. -/
inductive WfLines : List (List Char) → Prop
  | nil : WfLines []
  | last (w : List Char) : w ≠ [] → '\n' ∉ w → WfLines [w]
  | cons (w : List Char) (rest : List (List Char)) :
      '\n' ∉ w → WfLines rest → WfLines ((w ++ ['\n']) :: rest)

/-- `splitLinesAux` consumes a `'\n'`-free chunk into the accumulator. -/
theorem splitLinesAux_append_no_nl :
    ∀ w s acc : List Char, '\n' ∉ w →
      splitLinesAux (w ++ s) acc = splitLinesAux s (w.reverse ++ acc) := by
  intro w
  induction w with
  | nil =>
    intro s acc _
    simp
  | cons c cs ih =>
    intro s acc hnl
    have hc : ¬ c = '\n' := fun h => hnl (h ▸ List.mem_cons_self c cs)
    simp only [List.cons_append, splitLinesAux]
    rw [if_neg hc]
    rw [show cs.append s = cs ++ s from rfl]
    rw [ih s (c :: acc) (fun h => hnl (List.mem_cons_of_mem c h))]
    congr 1
    simp

/-- Splitting is a left inverse of flattening on well-formed line lists. -/
theorem splitLines_flatten_inv :
    ∀ L : List (List Char), WfLines L → splitLines L.flatten = L := by
  intro L hw
  induction hw with
  | nil => rfl
  | last w hne hnl =>
    simp only [List.flatten_cons, List.flatten_nil, List.append_nil]
    unfold splitLines
    have h1 := splitLinesAux_append_no_nl w [] [] hnl
    rw [List.append_nil] at h1
    rw [h1]
    simp [splitLinesAux, List.isEmpty_iff, hne]
  | cons w rest hnl hwrest ih =>
    simp only [List.flatten_cons]
    unfold splitLines
    rw [show (w ++ ['\n']) ++ rest.flatten = w ++ ('\n' :: rest.flatten) by simp]
    rw [splitLinesAux_append_no_nl w ('\n' :: rest.flatten) [] hnl]
    simp only [splitLinesAux, if_true]
    unfold splitLines at ih
    rw [ih]
    simp

/-- The lines `read_line` produces are well-formed. -/
theorem wfLines_splitLinesAux :
    ∀ s acc : List Char, '\n' ∉ acc → WfLines (splitLinesAux s acc) := by
  intro s
  induction s with
  | nil =>
    intro acc hacc
    simp only [splitLinesAux]
    by_cases ha : acc.isEmpty
    · rw [if_pos ha]
      exact WfLines.nil
    · rw [if_neg ha]
      refine WfLines.last acc.reverse ?_ ?_
      · simp only [List.isEmpty_iff] at ha
        simpa using ha
      · simpa using hacc
  | cons c cs ih =>
    intro acc hacc
    simp only [splitLinesAux]
    by_cases hc : c = '\n'
    · rw [if_pos hc]
      exact WfLines.cons acc.reverse _ (by simpa using hacc) (ih [] (List.not_mem_nil _))
    · rw [if_neg hc]
      refine ih (c :: acc) ?_
      intro hmem
      rcases List.mem_cons.mp hmem with h1 | h2
      · exact hc h1.symm
      · exact hacc h2

/-- Everything per-line processing can do to a line: keep it, or replace
its first `//` (found under the leading-marker test) by `//@`. -/
theorem classifyLine_shape (headers : List (List Char)) (line out : List Char)
    (h : classifyLine headers line = some out) :
    out = line ∨ ∃ b a, splitOnce marker line = some (b, a) ∧
      marker.isPrefixOf (trimStart line) = true ∧ out = b ++ markerAt ++ a := by
  unfold classifyLine at h
  split at h
  case isTrue hp =>
    obtain ⟨⟨b, a⟩, hsp, hval⟩ := Option.map_eq_some'.mp h
    have hval2 : (if headers.any (fun h2 => stripCrlf line == h2) then
        b ++ markerAt ++ a else line) = out := hval
    by_cases hm : headers.any (fun h2 => stripCrlf line == h2) = true
    · rw [if_pos hm] at hval2
      exact Or.inr ⟨b, a, hsp, hp, hval2.symm⟩
    · rw [if_neg hm] at hval2
      exact Or.inl hval2.symm
  case isFalse =>
    injection h with h2
    exact Or.inl h2.symm

/-- Processing a `'\n'`-free nonempty line yields a `'\n'`-free nonempty
line. -/
theorem classifyLine_no_nl (headers : List (List Char)) (w out : List Char)
    (hnl : '\n' ∉ w) (hne : w ≠ [])
    (h : classifyLine headers w = some out) :
    '\n' ∉ out ∧ out ≠ [] := by
  rcases classifyLine_shape headers w out h with rfl | ⟨b, a, hsp, -, rfl⟩
  · exact ⟨hnl, hne⟩
  · have hw : w = b ++ marker ++ a := splitOnce_sound marker w b a hsp
    constructor
    · intro hmem
      simp only [List.mem_append] at hmem
      rcases hmem with (hb | hm) | ha2
      · exact hnl (by rw [hw]; simp [hb])
      · exact absurd hm (by decide)
      · exact hnl (by rw [hw]; simp [ha2])
    · simp [markerAt]

/-- Processing a `'\n'`-terminated line with `'\n'`-free body yields a
line of the same shape. -/
theorem classifyLine_keeps_nl (headers : List (List Char)) (w out : List Char)
    (hnl : '\n' ∉ w)
    (h : classifyLine headers (w ++ ['\n']) = some out) :
    ∃ w2, out = w2 ++ ['\n'] ∧ '\n' ∉ w2 := by
  rcases classifyLine_shape headers (w ++ ['\n']) out h with rfl | ⟨b, a, hsp, -, rfl⟩
  · exact ⟨w, rfl, hnl⟩
  · have hw : w ++ ['\n'] = b ++ marker ++ a := splitOnce_sound marker _ b a hsp
    have hane : a ≠ [] := by
      intro hae
      subst hae
      have h2 : w ++ ['\n'] = (b ++ ['/']) ++ ['/'] := by
        rw [hw]
        simp [marker]
      have h3 := congrArg List.getLast? h2
      rw [List.getLast?_concat, List.getLast?_concat] at h3
      injection h3 with h4
      exact absurd h4 (by decide)
    have hsplit : a.dropLast ++ [a.getLast hane] = a := List.dropLast_append_getLast hane
    have hlast : a.getLast hane = '\n' := by
      have h2 : w ++ ['\n'] = (b ++ marker ++ a.dropLast) ++ [a.getLast hane] := by
        rw [← hsplit] at hw
        rw [hw]
        simp
      have h3 := congrArg List.getLast? h2
      rw [List.getLast?_concat, List.getLast?_concat] at h3
      injection h3 with h4
      exact h4.symm
    have hwdec : w = b ++ marker ++ a.dropLast := by
      have h2 : w ++ ['\n'] = (b ++ marker ++ a.dropLast) ++ ['\n'] := by
        rw [← hsplit, hlast] at hw
        rw [hw]
        simp
      exact List.append_cancel_right h2
    refine ⟨b ++ markerAt ++ a.dropLast, ?_, ?_⟩
    · rw [← hsplit, hlast]
      simp
    · intro hmem
      simp only [List.mem_append] at hmem
      rcases hmem with (hb | hm) | ha2
      · exact hnl (by rw [hwdec]; simp [hb])
      · exact absurd hm (by decide)
      · exact hnl (by rw [hwdec]; simp [ha2])

/-- Leading whitespace is transparent to `trim_start`. -/
theorem trimStart_ws_append {b s : List Char}
    (hws : ∀ c ∈ b, isRustWhitespace c = true) :
    trimStart (b ++ s) = trimStart s := by
  induction b with
  | nil => simp
  | cons c cs ih =>
    simp only [List.cons_append]
    unfold trimStart
    rw [List.dropWhile_cons, if_pos (hws c (List.mem_cons_self c cs))]
    exact ih (fun x hx => hws x (List.mem_cons_of_mem c hx))

/-- Per-line processing preserves line well-formedness. -/
theorem processLines_wf (headers : List (List Char)) :
    ∀ L out, WfLines L → processLines headers L = some out → WfLines out := by
  intro L out hw
  induction hw generalizing out with
  | nil =>
    intro h
    injection h with h2
    rw [← h2]
    exact WfLines.nil
  | last w hne hnl =>
    intro h
    cases hc : classifyLine headers w with
    | none =>
      simp only [processLines, hc] at h
      exact Option.noConfusion h
    | some r =>
      simp only [processLines, hc] at h
      injection h with h2
      rw [← h2]
      obtain ⟨hnl2, hne2⟩ := classifyLine_no_nl headers w r hnl hne hc
      exact WfLines.last r hne2 hnl2
  | cons w rest hnl hwrest ih =>
    intro h
    cases hc : classifyLine headers (w ++ ['\n']) with
    | none =>
      simp only [processLines, hc] at h
      exact Option.noConfusion h
    | some r =>
      cases hr : processLines headers rest with
      | none =>
        simp only [processLines, hc, hr] at h
        exact Option.noConfusion h
      | some rs =>
        simp only [processLines, hc, hr] at h
        injection h with h2
        rw [← h2]
        obtain ⟨w2, rfl, hnl2⟩ := classifyLine_keeps_nl headers w r hnl hc
        exact WfLines.cons w2 rs hnl2 (ih rs hr)

/-- With no already-migrated (`//@`-leading) member in the DirectiveSet,
a processed line is a fixed point of per-line processing. -/
theorem classifyLine_idem (headers : List (List Char))
    (hno : ∀ h ∈ headers, markerAt.isPrefixOf (trimStart h) = false)
    (line out : List Char) (h : classifyLine headers line = some out) :
    classifyLine headers out = some out := by
  rcases classifyLine_shape headers line out h with rfl | ⟨b, a, hsp, hp, rfl⟩
  · exact h
  · obtain ⟨b2, a2, hsp2, hws2⟩ := splitOnce_marker_ws line hp
    rw [hsp] at hsp2
    injection hsp2 with h2
    injection h2 with hb ha
    subst hb
    have hws : ∀ c ∈ b, isRustWhitespace c = true := hws2
    have hmk : stripCrlf markerAt = markerAt := by decide
    have hstrip : stripCrlf (b ++ markerAt ++ a) =
        stripCrlf b ++ markerAt ++ stripCrlf a := by
      unfold stripCrlf at hmk ⊢
      rw [List.filter_append, List.filter_append, hmk]
    have hwsf : ∀ c ∈ stripCrlf b, isRustWhitespace c = true := fun c hc =>
      hws c (List.mem_of_mem_filter hc)
    have htr : trimStart (stripCrlf (b ++ markerAt ++ a)) =
        markerAt ++ stripCrlf a := by
      rw [hstrip, List.append_assoc, trimStart_ws_append hwsf]
      unfold trimStart
      rw [show markerAt ++ stripCrlf a = '/' :: ('/' :: ('@' :: stripCrlf a)) from rfl]
      rw [List.dropWhile_cons, if_neg (by decide)]
    have hpre : markerAt.isPrefixOf
        (trimStart (stripCrlf (b ++ markerAt ++ a))) = true := by
      rw [htr, List.isPrefixOf_iff_prefix]
      exact ⟨stripCrlf a, rfl⟩
    have hnot : stripCrlf (b ++ markerAt ++ a) ∉ headers := by
      intro hmem
      have hfalse := hno _ hmem
      rw [hfalse] at hpre
      exact Bool.false_ne_true hpre
    exact classifyLine_eq_some_self headers _ hnot

/-- With no already-migrated member in the DirectiveSet, the output lines
of one processing pass are a fixed point of processing. -/
theorem processLines_idem (headers : List (List Char))
    (hno : ∀ h ∈ headers, markerAt.isPrefixOf (trimStart h) = false) :
    ∀ L out, processLines headers L = some out →
      processLines headers out = some out := by
  intro L
  induction L with
  | nil =>
    intro out h
    injection h with h2
    rw [← h2]
    rfl
  | cons l ls ih =>
    intro out h
    cases hc : classifyLine headers l with
    | none =>
      simp only [processLines, hc] at h
      exact Option.noConfusion h
    | some r =>
      cases hr : processLines headers ls with
      | none =>
        simp only [processLines, hc, hr] at h
        exact Option.noConfusion h
      | some rs =>
        simp only [processLines, hc, hr] at h
        injection h with h2
        rw [← h2]
        simp only [processLines, classifyLine_idem headers hno l r hc, ih rs hr]

/-- C4 amended: migration is idempotent for every DirectiveSet none of
whose members begins (after leading whitespace) with the migrated marker
`//@`: a second run on the first run's output reproduces that output
byte-for-byte.  (The restriction is forced by
`migration_idempotence_counterexample`: a set member in already-migrated
form makes the second run rewrite again.) -/
theorem migration_idempotent_of_no_migrated_headers (headers : List (List Char))
    (hno : ∀ h ∈ headers, markerAt.isPrefixOf (trimStart h) = false)
    (content out : List Char)
    (h : migrateFile headers content = some out) :
    migrateFile headers out = some out := by
  unfold migrateFile at h ⊢
  obtain ⟨L2, hpl, hflat⟩ := Option.map_eq_some'.mp h
  have hwf : WfLines (splitLines content) := by
    unfold splitLines
    exact wfLines_splitLinesAux content [] (List.not_mem_nil _)
  have hwf2 : WfLines L2 := processLines_wf headers (splitLines content) L2 hwf hpl
  have hinv : splitLines out = L2 := by
    rw [← hflat]
    exact splitLines_flatten_inv L2 hwf2
  rw [hinv, processLines_idem headers hno (splitLines content) L2 hpl,
    Option.map_some', hflat]

/-- `migration_idempotent_of_no_migrated_headers` on a concrete
migration: the second pass leaves `//@ run-pass\n` untouched. -/
theorem migration_idempotent_witness :
    migrateFile ["// run-pass".toList] "//@ run-pass\n".toList =
      some "//@ run-pass\n".toList :=
  migration_idempotent_of_no_migrated_headers ["// run-pass".toList] (by decide)
    "// run-pass\n".toList "//@ run-pass\n".toList (by decide)

/-! ## Test-file selection (`migrate_compiletest_tests`, main.rs 134–150) -/

/-- A directory entry as yielded by the `walkdir` traversal of the corpus:
its path (a component list, each component a character list) and whether
it is a directory. -/
structure FsEntry where
  path : List (List Char)
  isDir : Bool
deriving DecidableEq

/-- The text after the last `.` of a file name's tail, if any. -/
def extAfterDot : List Char → Option (List Char)
  | [] => none
  | c :: cs =>
    match extAfterDot cs with
    | some e => some e
    | none => if c = '.' then some cs else none

/-- Rust `Path::extension` on a file name: the text after the last `.`,
except that a dot in leading (hidden-file) position does not count. -/
def extOf (name : List Char) : Option (List Char) :=
  match name with
  | [] => none
  | _ :: rest => extAfterDot rest

/-- `e.path().extension().map(|s| s == "rs" || s == "fixed").unwrap_or(false)`
(main.rs 140–143); a path's extension is its last component's. -/
def extMatch (p : List (List Char)) : Bool :=
  match p.getLast? with
  | none => false
  | some name =>
    match extOf name with
    | some e => e == "rs".toList || e == "fixed".toList
    | none => false

/-- The `walkdir` filter chain (main.rs 134–147): an entry of the
traversal under `<root>/tests` survives iff it is not a directory, its
extension is `rs` or `fixed`, and it is not under `<root>/tests/ui`
(`Path::starts_with` is component-wise prefix). -/
def candidate (root : List (List Char)) (e : FsEntry) : Bool :=
  (root ++ ["tests".toList]).isPrefixOf e.path &&
  !e.isDir &&
  extMatch e.path &&
  !((root ++ ["tests".toList, "ui".toList]).isPrefixOf e.path)

/-- The file list migration iterates: surviving entries' paths, sorted
(`test_file_paths.sort()`; `PathBuf` order is lexicographic on components
with components compared lexicographically — the `List` lexicographic
order on both levels). -/
def selectTestFiles (root : List (List Char)) (entries : List FsEntry) :
    List (List (List Char)) :=
  List.insertionSort (· ≤ ·) ((entries.filter (candidate root)).map FsEntry.path)

/-- C9: the selected set is exactly the non-directory entries under
`<root>/tests` whose extension is `rs` or `fixed`, every path under
`<root>/tests/ui` excluded, and the resulting sequence is in
lexicographically sorted path order. -/
theorem test_file_selection (root : List (List Char)) (entries : List FsEntry) :
    (∀ p, p ∈ selectTestFiles root entries ↔
      ∃ e ∈ entries, e.path = p ∧
        (root ++ ["tests".toList]).isPrefixOf p = true ∧
        e.isDir = false ∧
        extMatch p = true ∧
        (root ++ ["tests".toList, "ui".toList]).isPrefixOf p = false) ∧
    List.Sorted (· ≤ ·) (selectTestFiles root entries) := by
  constructor
  · intro p
    unfold selectTestFiles
    rw [(List.perm_insertionSort _ _).mem_iff]
    simp only [List.mem_map, List.mem_filter]
    constructor
    · rintro ⟨e, ⟨hmem, hcand⟩, rfl⟩
      unfold candidate at hcand
      simp only [Bool.and_eq_true, Bool.not_eq_true'] at hcand
      exact ⟨e, hmem, rfl, hcand.1.1.1, hcand.1.1.2, hcand.1.2, hcand.2⟩
    · rintro ⟨e, hmem, rfl, h1, h2, h3, h4⟩
      refine ⟨e, ⟨hmem, ?_⟩, rfl⟩
      unfold candidate
      simp only [Bool.and_eq_true, Bool.not_eq_true']
      exact ⟨⟨⟨h1, h2⟩, h3⟩, h4⟩
  · exact List.sorted_insertionSort _ _

/-- `test_file_selection` instantiated: `tests/a.rs` is selected from a
one-entry traversal. -/
theorem test_file_selection_witness :
    ["tests".toList, "a.rs".toList] ∈
      selectTestFiles [] [⟨["tests".toList, "a.rs".toList], false⟩] :=
  ((test_file_selection [] [⟨["tests".toList, "a.rs".toList], false⟩]).1
    ["tests".toList, "a.rs".toList]).mpr
    ⟨⟨["tests".toList, "a.rs".toList], false⟩, List.mem_cons_self _ _, rfl,
      by decide, rfl, by decide, by decide⟩
